import Mathlib

/-!
Verification of the `ropts` command-line option parsing library against its
natural-language specification. The C++ sources are shallowly embedded:
pure functions become Lean functions, the mutation of the token cursor and
of option descriptors becomes explicit state passing, and C++ exceptions
become `Except`/`Option String` error values. Machine integers are modelled
as `Int` with explicit bounds (int = 32-bit, long = intmax = 64-bit, the
LP64 model the source targets).
-/

namespace ropts

/-! ## Token cursor (`CommandLine`, src/unnamed/part_005 lines 23-53)

The C++ class holds `argc_`/`argv_`, an index `next_argument_` (starting at
1, past the program name) and an optional pushed-back token
`current_element_`. -/

structure CommandLine where
  argv : List String
  next_argument : Nat
  current_element : Option String
deriving DecidableEq

/-- `CommandLine::next`: return the pushed-back token if present (clearing
it), else the next unconsumed argument (advancing), else none. -/
def CommandLine.next (c : CommandLine) : Option (String × CommandLine) :=
  match c.current_element with
  | some current => some (current, { c with current_element := none })
  | none =>
    if h : c.next_argument < c.argv.length then
      some (c.argv.get ⟨c.next_argument, h⟩, { c with next_argument := c.next_argument + 1 })
    else
      none

/-- `CommandLine::next_value_or_fail`: `next()`'s value, or the error
message `missing value '<value_name>'` when the cursor is exhausted. -/
def CommandLine.next_value_or_fail (c : CommandLine) (value_name : String) :
    CommandLine × Except String String :=
  match c.next with
  | some (value, c') => (c', .ok value)
  | none => (c, .error ("missing value '" ++ value_name ++ "'"))

/-- `CommandLine::push_front`: stash one token to be returned by the next
`next()`. The C++ `assert(!current_element_)` is a precondition, stated as
a hypothesis where it matters. -/
def CommandLine.push_front (c : CommandLine) (element : String) : CommandLine :=
  { c with current_element := some element }

/-- The tokens still to be consumed, in the order `next` will return them:
the pushed-back token (if any) then the arguments from `next_argument` on. -/
def CommandLine.remaining (c : CommandLine) : List String :=
  (match c.current_element with
   | some current => [current]
   | none => []) ++ c.argv.drop c.next_argument

/-- Number of tokens still to be consumed; the termination measure of the
parsing loop. -/
def CommandLine.count (c : CommandLine) : Nat :=
  c.remaining.length

/-! ## Integer value codec (src/unnamed/part_005 lines 59-140)

`parse_intmax` copies the text into a null-terminated buffer and calls C
`strtoimax(_, _, 0)`; it succeeds only when the conversion consumed the
whole text (`end_ptr` at the end) and `errno` stayed 0 (no `ERANGE`
overflow of `intmax_t`). We model `strtoimax` with base 0 exactly: skip
C-locale whitespace, an optional sign, then `0x`/`0X` hex (only when a hex
digit follows), a leading `0` for octal, else decimal; the mathematical
value is computed exactly and the `ERANGE` condition becomes a bounds check
against `intmax_t`. -/

def isSpaceChar (c : Char) : Bool :=
  c = ' ' || c = '\t' || c = '\n' || c = '\x0b' || c = '\x0c' || c = '\r'

/-- Value of `c` as a digit in base `base` (digits then letters, as strtol
accepts), or `none` when `c` is not a digit of that base. -/
def digitValue (base : Nat) (c : Char) : Option Nat :=
  let v : Option Nat :=
    if '0' ≤ c ∧ c ≤ '9' then some (c.toNat - '0'.toNat)
    else if 'a' ≤ c ∧ c ≤ 'z' then some (c.toNat - 'a'.toNat + 10)
    else if 'A' ≤ c ∧ c ≤ 'Z' then some (c.toNat - 'A'.toNat + 10)
    else none
  match v with
  | some d => if d < base then some d else none
  | none => none

/-- Consume a maximal run of digits of `base`, returning the accumulated
value, the number of digits consumed, and the rest of the input. -/
def takeDigits (base : Nat) : Nat → Nat → List Char → Nat × Nat × List Char
  | acc, n, [] => (acc, n, [])
  | acc, n, c :: cs =>
    match digitValue base c with
    | some d => takeDigits base (acc * base + d) (n + 1) cs
    | none => (acc, n, c :: cs)

/-- `strtoimax(text, &end, 0)` as a pure function: `some (value, rest)`
when a conversion was performed (`rest` the unconsumed suffix, C++ `end_ptr`
pointing at its start), `none` when no conversion was performed (C++ sets
`end_ptr = nptr`; the caller only compares `end_ptr` with the end of the
text, which a failed conversion on a non-empty text never reaches). -/
def strtoimax0 (cs : List Char) : Option (Int × List Char) :=
  let afterWs := cs.dropWhile isSpaceChar
  let signed : Int × List Char :=
    match afterWs with
    | '-' :: r => (-1, r)
    | '+' :: r => (1, r)
    | _ => (1, afterWs)
  match signed.2 with
  | '0' :: rest =>
    match rest with
    | x :: r =>
      if (x = 'x' || x = 'X') && (match r with
          | c :: _ => (digitValue 16 c).isSome
          | [] => false) then
        let t := takeDigits 16 0 0 r
        some (signed.1 * (t.1 : Int), t.2.2)
      else
        let t := takeDigits 8 0 0 ('0' :: rest)
        some (signed.1 * (t.1 : Int), t.2.2)
    | [] => some (0, [])
  | other =>
    let t := takeDigits 10 0 0 other
    if t.2.1 = 0 then none else some (signed.1 * (t.1 : Int), t.2.2)

def intmax_min : Int := -(2 ^ 63)

def intmax_max : Int := 2 ^ 63 - 1

def int_min : Int := -(2 ^ 31)

def int_max : Int := 2 ^ 31 - 1

/-- The message built by `fail_invalid_type_parsing`. -/
def invalid_value_message (text value_name type_name : String) : String :=
  "value '" ++ value_name ++ "' is not a valid " ++ type_name ++ ": '" ++ text ++ "'"

/-- `parse_intmax` (src/unnamed/part_005 lines 72-83): succeed iff the text
is non-empty, `strtoimax` consumed it entirely, and no `ERANGE` occurred
(the exact value fits `intmax_t`). -/
def parse_intmax (text value_name type_name : String) : Except String Int :=
  if !text.isEmpty then
    match strtoimax0 text.data with
    | some (value, rest) =>
      if rest = [] ∧ intmax_min ≤ value ∧ value ≤ intmax_max then .ok value
      else .error (invalid_value_message text value_name type_name)
    | none => .error (invalid_value_message text value_name type_name)
  else .error (invalid_value_message text value_name type_name)

/-- `parse_signed_integer<T>` (src/unnamed/part_005 lines 85-96): the
`parse_intmax` result must also fit `T`'s limits. -/
def parse_signed_integer (tmin tmax : Int) (text value_name type_name : String) :
    Except String Int :=
  match parse_intmax text value_name type_name with
  | .ok value =>
    if tmin ≤ value ∧ value ≤ tmax then .ok value
    else .error (invalid_value_message text value_name type_name)
  | .error e => .error e

/-- `ValueTrait<int>::parse(string_view, string_view)`. -/
def ValueTrait_int_parse (text name : String) : Except String Int :=
  parse_signed_integer int_min int_max text name "integer (int)"

/-- `ValueTrait<long>::parse(string_view, string_view)`. -/
def ValueTrait_long_parse (text name : String) : Except String Int :=
  parse_signed_integer intmax_min intmax_max text name "integer (long)"

/-- `ValueTrait<int>::parse(CommandLine &, string_view)`: fetch one token
via `next_value_or_fail`, then delegate to the text overload. -/
def ValueTrait_int_parse_cmd (state : CommandLine) (name : String) :
    CommandLine × Except String Int :=
  let fetched := state.next_value_or_fail name
  match fetched.2 with
  | .ok text => (fetched.1, ValueTrait_int_parse text name)
  | .error e => (fetched.1, .error e)

/-! ## Text cell (`CowStr`, src/ropts.h lines 26-98)

A tagged union of a borrowed slice and an owned heap buffer. The shallow
embedding records the viewed content and the tag; `Owned` is the state the
heap-allocating copy path produces, `Borrowed` the non-allocating one, so
"no heap allocation" is `type = Borrowed`. -/

inductive CowType where
  | Borrowed
  | Owned
deriving DecidableEq

structure CowStr where
  content : String
  type : CowType
deriving DecidableEq

/-- `default_state_` = `{"", 0, Type::Borrowed}`: the state of a
default-constructed cell. -/
def CowStr.default_state : CowStr :=
  { content := "", type := CowType.Borrowed }

/-- The copying constructor `CowStr(string_view s)`: start from the default
state, and only when `s` is non-empty allocate an owned copy of it. -/
def CowStr.from_string_view (s : String) : CowStr :=
  if !s.isEmpty then { content := s, type := CowType.Owned }
  else CowStr.default_state

def CowStr.view (c : CowStr) : String := c.content

def CowStr.size (c : CowStr) : Nat := c.content.length

/-! ## Option descriptors (src/unnamed/part_001 lines 196-299)

`OptionBase` carries the names, help text and the occurrence counter;
the subclasses `Flag`, `OptionSingle<T>` and `OptionMultiple<T>` provide
`parse_impl`. The closed variant `OptKind` models the three subclasses,
instantiated at the `int` codec. C++ exceptions from `parse_impl` become a
`some message` third component; a C++ throw leaves the fields written
before it unchanged, which the embedding reproduces by returning the states
current at the throw point. -/

inductive OptKind where
  | flag
  | single (value : Option Int) (value_name : String)
  | multiple (values : List Int) (value_name : String)
deriving DecidableEq

structure OptionBase where
  short_name : Char := '\x00'
  long_name : String := ""
  help_text : String := ""
  nb_occurrences : Nat := 0
  kind : OptKind
deriving DecidableEq

def OptionBase.has_short_name (o : OptionBase) : Bool := o.short_name ≠ '\x00'

def OptionBase.has_long_name (o : OptionBase) : Bool := o.long_name ≠ ""

/-- `OptionBase::name`: the long name if present, else a one-character view
of the short name. -/
def OptionBase.name (o : OptionBase) : String :=
  if o.has_long_name then o.long_name else String.mk [o.short_name]

/-- The message thrown by `OptionBase::fail_option_repeated`. -/
def OptionBase.fail_option_repeated (o : OptionBase) : String :=
  "option '" ++ o.name ++ "' cannot be used more than once"

/-- The message thrown by `OptionBase::fail_parsing_error`. -/
def OptionBase.fail_parsing_error (o : OptionBase) (msg : String) : String :=
  "option '" ++ o.name ++ "': " ++ msg

/-- The three `parse_impl` overrides: `Flag` is a no-op; `OptionSingle`
rejects a second occurrence before running the codec, then stores the
parsed value, wrapping codec failures; `OptionMultiple` always parses and
appends, wrapping codec failures the same way. -/
def OptionBase.parse_impl (o : OptionBase) (state : CommandLine) :
    OptionBase × CommandLine × Option String :=
  match o.kind with
  | .flag => (o, state, none)
  | .single _ value_name =>
    if o.nb_occurrences > 0 then
      (o, state, some o.fail_option_repeated)
    else
      let r := ValueTrait_int_parse_cmd state value_name
      match r.2 with
      | .ok v => ({ o with kind := .single (some v) value_name }, r.1, none)
      | .error e => (o, r.1, some (o.fail_parsing_error e))
  | .multiple values value_name =>
    let r := ValueTrait_int_parse_cmd state value_name
    match r.2 with
    | .ok v => ({ o with kind := .multiple (values ++ [v]) value_name }, r.1, none)
    | .error e => (o, r.1, some (o.fail_parsing_error e))

/-- `OptionBase::parse`: run `parse_impl`, then increment the occurrence
count; a `parse_impl` failure propagates and skips the increment. The field
`nb_occurrences_` is a `std::uint16_t`, so `nb_occurrences_ += 1` wraps
modulo 2^16. -/
def OptionBase.parse (o : OptionBase) (state : CommandLine) :
    OptionBase × CommandLine × Option String :=
  let r := o.parse_impl state
  match r.2.2 with
  | none => ({ r.1 with nb_occurrences := (r.1.nb_occurrences + 1) % 2 ^ 16 }, r.2.1, none)
  | some e => (r.1, r.2.1, some e)

/-! ## Composite (tuple) value codec -/

/-- Modelled from the spec: `ValueTrait<std::tuple<Types...>>::parse` is
only declared in the source (src/unnamed/part_001 lines 184-189, "TODO use
parse N times with Types"); its implementation is missing from src. Per
spec §4.3 the name-storage shape is N names, one per slot, and parse
invokes each element codec in positional order against the matching name,
each element fetching its token through the cursor exactly as the scalar
codecs do (`next_value_or_fail`, then the text codec), producing the tuple
only if every element parses and aborting on the first failing element.
Element codecs are the scalar text codecs, `(text, name) ↦ value`. -/
def tuple_parse :
    List (String → String → Except String Int) → List String → CommandLine →
    CommandLine × Except String (List Int)
  | [], [], state => (state, .ok [])
  | elem :: elems, name :: names, state =>
    let fetched := state.next_value_or_fail name
    match fetched.2 with
    | .error e => (fetched.1, .error e)
    | .ok text =>
      match elem text name with
      | .error e => (fetched.1, .error e)
      | .ok v =>
        let rest := tuple_parse elems names fetched.1
        match rest.2 with
        | .ok vs => (rest.1, .ok (v :: vs))
        | .error e => (rest.1, .error e)
  | _, _, state => (state, .error "arity mismatch")

/-! ## Usage rendering (src/unnamed/part_005 lines 319-370)

`write_usage_impl` runs the same `write_option_pattern` lambda twice: pass
1 against a `DummyBuffer` that only counts characters, pass 2 against the
real buffer. Both are transcribed; the pattern is the two-space indent,
`-<short>`, a comma when both names are present, `--<long>`, then a space
and each value name. The usage side of a descriptor is the interface the
lambda consumes: names, help text and the `value_names()` slice. -/

structure UsageOption where
  short_name : Char := '\x00'
  long_name : String := ""
  help_text : String := ""
  value_names : List String := []

def UsageOption.has_short_name (o : UsageOption) : Bool := o.short_name ≠ '\x00'

def UsageOption.has_long_name (o : UsageOption) : Bool := o.long_name ≠ ""

/-- Pass 1: `write_option_pattern(DummyBuffer{}, option)` — the number of
characters the pattern occupies. -/
def write_option_pattern_size (o : UsageOption) : Nat :=
  2
  + (if o.has_short_name then 2 else 0)
  + (if o.has_short_name ∧ o.has_long_name then 1 else 0)
  + (if o.has_long_name then 2 + o.long_name.length else 0)
  + (o.value_names.map (fun value_name => 1 + value_name.length)).sum

/-- Pass 2: `write_option_pattern(buffer, option)` — the characters the
pattern writes, in order. -/
def write_option_pattern_string (o : UsageOption) : String :=
  "  "
  ++ (if o.has_short_name then "-" ++ String.mk [o.short_name] else "")
  ++ (if o.has_short_name ∧ o.has_long_name then "," else "")
  ++ (if o.has_long_name then "--" ++ o.long_name else "")
  ++ String.join (o.value_names.map (fun value_name => " " ++ value_name))

/-- The alignment column: the maximum pattern width plus the fixed
3-character gutter, over all registered descriptors. -/
def help_text_offset (options : List UsageOption) : Nat :=
  options.foldl (fun acc o => max acc (write_option_pattern_size o + 3)) 0

/-- One line of pass 2: the pattern, spaces up to the alignment column
(the `while(size < help_text_offset)` loop), the help text, a newline. -/
def usage_option_line (offset : Nat) (o : UsageOption) : String :=
  write_option_pattern_string o
  ++ String.mk (List.replicate (offset - write_option_pattern_size o) ' ')
  ++ o.help_text ++ "\n"

/-- `write_usage_impl`: banner, `Options:` header, then one aligned line
per descriptor. -/
def write_usage_impl (application_name : String) (options : List UsageOption) : String :=
  application_name ++ " [options]\n\n"
  ++ "Options:\n"
  ++ String.join (options.map (usage_option_line (help_text_offset options)))

/-! ## Engine (`Application::parse`, src/unnamed/part_005 lines 230-297)

`find` scans the registered descriptors in order for the first match; the
matched descriptor's `parse` then mutates it (through the registered
pointer) and the cursor. `find_and_parse` fuses the lookup and the
dispatch, returning the updated registry, cursor, and error, or `none` when
no descriptor matches.

The while loop of `Application::parse` terminates because every iteration
consumes at least the token holding the option name; the `count` lemmas
below justify that measure and are needed before the loop's definition. -/

def find_and_parse (options : List OptionBase) (pred : OptionBase → Bool)
    (state : CommandLine) : Option (List OptionBase × CommandLine × Option String) :=
  match options with
  | [] => none
  | o :: rest =>
    if pred o then
      let r := o.parse state
      some (r.1 :: rest, r.2.1, r.2.2)
    else
      match find_and_parse rest pred state with
      | some (rest', state', err) => some (o :: rest', state', err)
      | none => none

theorem next_count_lt {c : CommandLine} {t : String} {c' : CommandLine}
    (h : c.next = some (t, c')) : c'.count < c.count := by
  obtain ⟨argv, n, cur⟩ := c
  cases cur with
  | some s =>
    simp only [CommandLine.next, Option.some.injEq, Prod.mk.injEq] at h
    simp [CommandLine.count, CommandLine.remaining, ← h.2]
  | none =>
    simp only [CommandLine.next] at h
    split at h
    · rename_i hlt
      simp only [Option.some.injEq, Prod.mk.injEq] at h
      simp only [CommandLine.count, CommandLine.remaining, ← h.2, List.nil_append,
        List.length_drop]
      omega
    · exact absurd h (by simp)

theorem next_value_or_fail_count_le (c : CommandLine) (name : String) :
    (c.next_value_or_fail name).1.count ≤ c.count := by
  unfold CommandLine.next_value_or_fail
  rcases h : c.next with _ | ⟨t, c'⟩
  · simp
  · simpa using Nat.le_of_lt (next_count_lt h)

theorem parse_cmd_count_le (c : CommandLine) (name : String) :
    (ValueTrait_int_parse_cmd c name).1.count ≤ c.count := by
  unfold ValueTrait_int_parse_cmd
  rcases h : (c.next_value_or_fail name).2 with e | t <;>
    simpa [h] using next_value_or_fail_count_le c name

theorem parse_impl_count_le (o : OptionBase) (c : CommandLine) :
    (o.parse_impl c).2.1.count ≤ c.count := by
  unfold OptionBase.parse_impl
  rcases o.kind with _ | ⟨v, vn⟩ | ⟨vs, vn⟩
  · simp
  · dsimp only
    split
    · simp
    · rcases h : (ValueTrait_int_parse_cmd c vn).2 with e | t <;>
        simpa [h] using parse_cmd_count_le c vn
  · dsimp only
    rcases h : (ValueTrait_int_parse_cmd c vn).2 with e | t <;>
      simpa [h] using parse_cmd_count_le c vn

theorem parse_count_le (o : OptionBase) (c : CommandLine) :
    (o.parse c).2.1.count ≤ c.count := by
  unfold OptionBase.parse
  rcases h : (o.parse_impl c).2.2 with _ | e <;>
    simpa [h] using parse_impl_count_le o c

theorem find_and_parse_count_le {options : List OptionBase} {pred : OptionBase → Bool}
    {c : CommandLine} {options' : List OptionBase} {c' : CommandLine} {err : Option String}
    (h : find_and_parse options pred c = some (options', c', err)) : c'.count ≤ c.count := by
  induction options generalizing options' c' err with
  | nil => simp [find_and_parse] at h
  | cons o rest ih =>
    unfold find_and_parse at h
    split at h
    · simp only [Option.some.injEq, Prod.mk.injEq] at h
      exact h.2.1 ▸ parse_count_le o c
    · rcases hf : find_and_parse rest pred c with _ | ⟨⟨rest', state', err'⟩⟩ <;> rw [hf] at h
      · exact absurd h (by simp)
      · simp only [Option.some.injEq, Prod.mk.injEq] at h
        exact h.2.1 ▸ ih hf

/-- `Application::parse`'s token loop. `enable_option_parsing` starts true
and is cleared by a bare `--`; a long-option token dispatches on the exact
long name, a two-character `-c` token on the short name, a longer
dash-token is the unsupported packed syntax, and every other token falls
through to the final (currently empty) branch. The first error aborts. -/
def Application.parse_loop (options : List OptionBase) (enable_option_parsing : Bool)
    (command_line : CommandLine) : Except String (List OptionBase) :=
  match h : command_line.next with
  | none => .ok options
  | some (element, c1) =>
    if enable_option_parsing then
      match element.data with
      | '-' :: '-' :: name_chars =>
        if name_chars.isEmpty then
          Application.parse_loop options false c1
        else
          match hf : find_and_parse options
              (fun o => o.long_name = String.mk name_chars) c1 with
          | some (options', c2, none) =>
            Application.parse_loop options' enable_option_parsing c2
          | some (_, _, some e) => .error e
          | none => .error ("unknown option name: '" ++ element ++ "'")
      | '-' :: short :: rest =>
        if !rest.isEmpty then
          .error ("packed short options are not supported: '" ++ element ++ "'")
        else
          match hf : find_and_parse options (fun o => o.short_name = short) c1 with
          | some (options', c2, none) =>
            Application.parse_loop options' enable_option_parsing c2
          | some (_, _, some e) => .error e
          | none => .error ("unknown option name: '" ++ element ++ "'")
      | _ => Application.parse_loop options enable_option_parsing c1
    else
      Application.parse_loop options enable_option_parsing c1
termination_by command_line.count
decreasing_by
  · exact next_count_lt h
  · exact Nat.lt_of_le_of_lt (find_and_parse_count_le hf) (next_count_lt h)
  · exact Nat.lt_of_le_of_lt (find_and_parse_count_le hf) (next_count_lt h)
  · exact next_count_lt h
  · exact next_count_lt h

/-- `Application::parse`: run the loop with option parsing enabled. -/
def Application.parse (options : List OptionBase) (command_line : CommandLine) :
    Except String (List OptionBase) :=
  Application.parse_loop options true command_line

/-- A token the state machine classifies as an option token when parsing is
enabled: length at least 2 and a leading dash (the long/short distinction
is made afterwards). -/
def is_option_like (s : String) : Bool :=
  match s.data with
  | '-' :: _ :: _ => true
  | _ => false

/-! ### Step lemmas for the token loop

One lemma per arm of `Application::parse`'s classification; claim proofs
chain them instead of unfolding the well-founded recursion by hand. -/

theorem parse_loop_none {c : CommandLine} (h : c.next = none)
    (options : List OptionBase) (enabled : Bool) :
    Application.parse_loop options enabled c = .ok options := by
  rw [Application.parse_loop.eq_def]
  split
  · rfl
  · rename_i heq; rw [h] at heq; exact absurd heq (by simp)

theorem parse_loop_skip {c c1 : CommandLine} {tok : String} {enabled : Bool}
    (h : c.next = some (tok, c1))
    (hskip : (enabled && is_option_like tok) = false)
    (options : List OptionBase) :
    Application.parse_loop options enabled c = Application.parse_loop options enabled c1 := by
  rw [Application.parse_loop.eq_def]
  split
  · rename_i heq; rw [h] at heq; exact absurd heq (by simp)
  · rename_i element c1' heq
    rw [h] at heq
    simp only [Option.some.injEq, Prod.mk.injEq] at heq
    obtain ⟨rfl, rfl⟩ := heq
    cases enabled with
    | false => simp
    | true =>
      simp only [Bool.true_and] at hskip
      simp only [if_true]
      unfold is_option_like at hskip
      split
      · rename_i hd; rw [hd] at hskip; simp at hskip
      · rename_i hd; rw [hd] at hskip; simp at hskip
      · rfl

theorem parse_loop_terminator {c c1 : CommandLine} {tok : String}
    (h : c.next = some (tok, c1)) (hd : tok.data = ['-', '-'])
    (options : List OptionBase) :
    Application.parse_loop options true c = Application.parse_loop options false c1 := by
  rw [Application.parse_loop.eq_def]
  split
  · rename_i heq; rw [h] at heq; exact absurd heq (by simp)
  · rename_i element c1' heq
    rw [h] at heq
    simp only [Option.some.injEq, Prod.mk.injEq] at heq
    obtain ⟨rfl, rfl⟩ := heq
    simp only [if_true]
    rw [hd]
    split
    · rename_i name_chars heq2
      simp only [List.cons.injEq] at heq2
      rw [← heq2.2.2]
      simp
    · rename_i short rest hcon heq2
      simp only [List.cons.injEq] at heq2
      exact absurd heq2.2.1.symm hcon
    · rename_i hcon1 hcon2
      exact absurd rfl (hcon1 [])

theorem parse_loop_long {c c1 : CommandLine} {tok : String} {name_chars : List Char}
    {options options' : List OptionBase} {c2 : CommandLine} {err : Option String}
    (h : c.next = some (tok, c1)) (hd : tok.data = '-' :: '-' :: name_chars)
    (hnc : name_chars ≠ [])
    (hf : find_and_parse options (fun o => o.long_name = String.mk name_chars) c1 =
      some (options', c2, err)) :
    Application.parse_loop options true c =
      match err with
      | none => Application.parse_loop options' true c2
      | some e => .error e := by
  rw [Application.parse_loop.eq_def]
  split
  · rename_i heq; rw [h] at heq; exact absurd heq (by simp)
  · rename_i element c1' heq
    rw [h] at heq
    simp only [Option.some.injEq, Prod.mk.injEq] at heq
    obtain ⟨rfl, rfl⟩ := heq
    simp only [if_true]
    rw [hd]
    split
    · rename_i name_chars' heq2
      simp only [List.cons.injEq] at heq2
      obtain ⟨-, -, heq3⟩ := heq2
      subst heq3
      rw [if_neg (by simpa using hnc)]
      split
      · rename_i opts2 c2' hf'
        rw [hf] at hf'
        simp only [Option.some.injEq, Prod.mk.injEq] at hf'
        obtain ⟨rfl, rfl, herr⟩ := hf'
        subst herr
        rfl
      · rename_i opts2 c2' e hf'
        rw [hf] at hf'
        simp only [Option.some.injEq, Prod.mk.injEq] at hf'
        obtain ⟨rfl, rfl, herr⟩ := hf'
        subst herr
        rfl
      · rename_i hf'
        rw [hf] at hf'
        exact absurd hf' (by simp)
    · rename_i short rest hcon heq2
      simp only [List.cons.injEq] at heq2
      exact absurd heq2.2.1.symm hcon
    · rename_i hcon1 hcon2
      exact absurd rfl (hcon1 name_chars)

theorem parse_loop_long_unknown {c c1 : CommandLine} {tok : String} {name_chars : List Char}
    {options : List OptionBase}
    (h : c.next = some (tok, c1)) (hd : tok.data = '-' :: '-' :: name_chars)
    (hnc : name_chars ≠ [])
    (hf : find_and_parse options (fun o => o.long_name = String.mk name_chars) c1 = none) :
    Application.parse_loop options true c =
      .error ("unknown option name: '" ++ tok ++ "'") := by
  rw [Application.parse_loop.eq_def]
  split
  · rename_i heq; rw [h] at heq; exact absurd heq (by simp)
  · rename_i element c1' heq
    rw [h] at heq
    simp only [Option.some.injEq, Prod.mk.injEq] at heq
    obtain ⟨rfl, rfl⟩ := heq
    simp only [if_true]
    rw [hd]
    split
    · rename_i name_chars' heq2
      simp only [List.cons.injEq] at heq2
      obtain ⟨-, -, heq3⟩ := heq2
      subst heq3
      rw [if_neg (by simpa using hnc)]
      split
      · rename_i opts2 c2' hf'
        rw [hf] at hf'
        exact absurd hf' (by simp)
      · rename_i opts2 c2' e hf'
        rw [hf] at hf'
        exact absurd hf' (by simp)
      · rfl
    · rename_i short rest hcon heq2
      simp only [List.cons.injEq] at heq2
      exact absurd heq2.2.1.symm hcon
    · rename_i hcon1 hcon2
      exact absurd rfl (hcon1 name_chars)

theorem parse_loop_short {c c1 : CommandLine} {tok : String} {ch : Char}
    {options options' : List OptionBase} {c2 : CommandLine} {err : Option String}
    (h : c.next = some (tok, c1)) (hd : tok.data = ['-', ch]) (hch : ch ≠ '-')
    (hf : find_and_parse options (fun o => o.short_name = ch) c1 = some (options', c2, err)) :
    Application.parse_loop options true c =
      match err with
      | none => Application.parse_loop options' true c2
      | some e => .error e := by
  rw [Application.parse_loop.eq_def]
  split
  · rename_i heq; rw [h] at heq; exact absurd heq (by simp)
  · rename_i element c1' heq
    rw [h] at heq
    simp only [Option.some.injEq, Prod.mk.injEq] at heq
    obtain ⟨rfl, rfl⟩ := heq
    simp only [if_true]
    rw [hd]
    split
    · rename_i name_chars' heq2
      simp only [List.cons.injEq] at heq2
      exact absurd heq2.2.1 hch
    · rename_i short rest hcon heq2
      simp only [List.cons.injEq] at heq2
      obtain ⟨-, hsh, hrest⟩ := heq2
      subst hsh
      rw [← hrest]
      simp only [List.isEmpty_nil, Bool.not_true, Bool.false_eq_true, if_false]
      split
      · rename_i opts2 c2' hf'
        rw [hf] at hf'
        simp only [Option.some.injEq, Prod.mk.injEq] at hf'
        obtain ⟨rfl, rfl, herr⟩ := hf'
        subst herr
        rfl
      · rename_i opts2 c2' e hf'
        rw [hf] at hf'
        simp only [Option.some.injEq, Prod.mk.injEq] at hf'
        obtain ⟨rfl, rfl, herr⟩ := hf'
        subst herr
        rfl
      · rename_i hf'
        rw [hf] at hf'
        exact absurd hf' (by simp)
    · rename_i hcon1 hcon2
      exact absurd rfl (hcon2 ch [])

theorem parse_loop_short_unknown {c c1 : CommandLine} {tok : String} {ch : Char}
    {options : List OptionBase}
    (h : c.next = some (tok, c1)) (hd : tok.data = ['-', ch]) (hch : ch ≠ '-')
    (hf : find_and_parse options (fun o => o.short_name = ch) c1 = none) :
    Application.parse_loop options true c =
      .error ("unknown option name: '" ++ tok ++ "'") := by
  rw [Application.parse_loop.eq_def]
  split
  · rename_i heq; rw [h] at heq; exact absurd heq (by simp)
  · rename_i element c1' heq
    rw [h] at heq
    simp only [Option.some.injEq, Prod.mk.injEq] at heq
    obtain ⟨rfl, rfl⟩ := heq
    simp only [if_true]
    rw [hd]
    split
    · rename_i name_chars' heq2
      simp only [List.cons.injEq] at heq2
      exact absurd heq2.2.1 hch
    · rename_i short rest hcon heq2
      simp only [List.cons.injEq] at heq2
      obtain ⟨-, hsh, hrest⟩ := heq2
      subst hsh
      rw [← hrest]
      simp only [List.isEmpty_nil, Bool.not_true, Bool.false_eq_true, if_false]
      split
      · rename_i opts2 c2' hf'
        rw [hf] at hf'
        exact absurd hf' (by simp)
      · rename_i opts2 c2' e hf'
        rw [hf] at hf'
        exact absurd hf' (by simp)
      · rfl
    · rename_i hcon1 hcon2
      exact absurd rfl (hcon2 ch [])


theorem parse_loop_disabled (options : List OptionBase) :
    ∀ c : CommandLine, Application.parse_loop options false c = .ok options := by
  intro c
  generalize hn : c.count = n
  induction n using Nat.strong_induction_on generalizing c with
  | _ n ih =>
    rcases h : c.next with _ | ⟨tok, c1⟩
    · exact parse_loop_none h options false
    · rw [parse_loop_skip h (by simp) options]
      exact ih c1.count (hn ▸ next_count_lt h) c1 rfl

/-- `parse_impl` never touches the occurrence counter: only
`OptionBase::parse` increments it. -/
theorem parse_impl_nb (o : OptionBase) (c : CommandLine) :
    (o.parse_impl c).1.nb_occurrences = o.nb_occurrences := by
  obtain ⟨sn, ln, ht, nb, k⟩ := o
  cases k with
  | flag => rfl
  | single v vn =>
    dsimp only [OptionBase.parse_impl]
    split
    · rfl
    · rcases h : (ValueTrait_int_parse_cmd c vn).2 with e | t <;> simp [h]
  | multiple vs vn =>
    dsimp only [OptionBase.parse_impl]
    rcases h : (ValueTrait_int_parse_cmd c vn).2 with e | t <;> simp [h]

/-! ### Test fixtures: the descriptors and argument lists of the spec's
end-to-end scenarios. -/

/-- The single-value integer option with short name `f` of the spec's
scenarios (`OptionSingle<int> factor{'f'}` in src/tests.cpp). -/
def factor : OptionBase :=
  { short_name := 'f', kind := OptKind.single none "N" }

/-- A command line as `Application::parse` receives it: the program name in
slot 0, `next_argument_` starting at 1, no pushed-back token. -/
def command_line_of (args : List String) : CommandLine :=
  { argv := "prog" :: args, next_argument := 1, current_element := none }

/-- The `factor` descriptor after one successful `-f 1` parse. -/
def factor_used : OptionBase :=
  { short_name := 'f', nb_occurrences := 1, kind := OptKind.single (some 1) "N" }

/-! ## The claims -/

/-- A flag descriptor whose 16-bit occurrence counter sits at 65535, the
maximum a `std::uint16_t` can hold. -/
def flag_at_limit : OptionBase :=
  { short_name := 'v', nb_occurrences := 65535, kind := OptKind.flag }

/-- Counterexample to C2 as frozen: with the counter at 65535, a
successful parse of the flag wraps the occurrence count to 0 — it does not
become `nb_occurrences + 1`, because `nb_occurrences_` is a
`std::uint16_t`. -/
theorem parse_occurrence_wrap_counterexample :
    (flag_at_limit.parse (command_line_of [])).2.2 = none ∧
    (flag_at_limit.parse (command_line_of [])).1.nb_occurrences = 0 ∧
    ¬ ((flag_at_limit.parse (command_line_of [])).1.nb_occurrences =
        flag_at_limit.nb_occurrences + 1) := by
  decide

/-- C2 (amended). For every option descriptor and cursor state,
`OptionBase::parse` reports exactly `parse_impl`'s error; on success it
increments the 16-bit occurrence counter modulo 2^16 — by exactly one as
long as the incremented counter still fits `std::uint16_t` — and on
failure it leaves the counter unchanged (the increment happens only after
a successful `parse_impl`, never before and never on the error path). -/
theorem parse_increments_occurrence_exactly_once :
    ∀ (o : OptionBase) (c : CommandLine),
      ((o.parse c).2.2 = (o.parse_impl c).2.2) ∧
      ((o.parse c).2.2 = none →
        (o.parse c).1.nb_occurrences = (o.nb_occurrences + 1) % 2 ^ 16) ∧
      ((o.parse c).2.2 = none → o.nb_occurrences + 1 < 2 ^ 16 →
        (o.parse c).1.nb_occurrences = o.nb_occurrences + 1) ∧
      (∀ e, (o.parse c).2.2 = some e → (o.parse c).1.nb_occurrences = o.nb_occurrences) := by
  intro o c
  unfold OptionBase.parse
  rcases h : (o.parse_impl c).2.2 with _ | e <;>
    simp [h, parse_impl_nb, Nat.mod_eq_of_lt]

/-- C3. A single-value descriptor whose occurrence count is already ≥ 1
fails with the stand-alone message `option '<name>' cannot be used more
than once` — the option state and the cursor are returned unchanged, so no
value token is consumed, the codec does not run and the stored value does
not change; and end to end, parsing `["-f","1","-f","2"]` for the
single-value option `f` fails on the second occurrence with that exact
message. -/
theorem single_option_repeated_fails :
    ∀ (o : OptionBase) (c : CommandLine) (v : Option Int) (vn : String),
      o.kind = OptKind.single v vn → 1 ≤ o.nb_occurrences →
      o.parse c = (o, c, some ("option '" ++ o.name ++ "' cannot be used more than once")) ∧
      Application.parse [factor] (command_line_of ["-f", "1", "-f", "2"]) =
        .error "option 'f' cannot be used more than once" := by
  intro o c v vn hk hocc
  constructor
  · have himpl : o.parse_impl c = (o, c, some o.fail_option_repeated) := by
      unfold OptionBase.parse_impl
      rw [hk]
      dsimp only
      rw [if_pos (by omega)]
    unfold OptionBase.parse
    rw [himpl]
    rfl
  · have h1 : (command_line_of ["-f", "1", "-f", "2"]).next =
        some ("-f", CommandLine.mk ["prog", "-f", "1", "-f", "2"] 2 none) := by decide
    have hf1 : find_and_parse [factor] (fun o => o.short_name = 'f')
        (CommandLine.mk ["prog", "-f", "1", "-f", "2"] 2 none) =
        some ([factor_used], CommandLine.mk ["prog", "-f", "1", "-f", "2"] 3 none, none) := by
      decide
    rw [Application.parse, parse_loop_short h1 (by decide) (by decide) hf1]
    have h2 : (CommandLine.mk ["prog", "-f", "1", "-f", "2"] 3 none).next =
        some ("-f", CommandLine.mk ["prog", "-f", "1", "-f", "2"] 4 none) := by decide
    have hf2 : find_and_parse [factor_used] (fun o => o.short_name = 'f')
        (CommandLine.mk ["prog", "-f", "1", "-f", "2"] 4 none) =
        some ([factor_used], CommandLine.mk ["prog", "-f", "1", "-f", "2"] 4 none,
              some "option 'f' cannot be used more than once") := by decide
    rw [parse_loop_short h2 (by decide) (by decide) hf2]

/-- `next = none` exactly when no token remains. -/
theorem next_none_iff (c : CommandLine) : c.next = none ↔ c.remaining = [] := by
  obtain ⟨argv, n, cur⟩ := c
  cases cur with
  | some s => simp [CommandLine.next, CommandLine.remaining]
  | none =>
    simp only [CommandLine.next, CommandLine.remaining, List.nil_append]
    constructor
    · intro h
      split at h
      · exact absurd h (by simp)
      · rename_i hge
        exact List.drop_eq_nil_of_le (by omega)
    · intro h
      split
      · rename_i hlt
        have hlen := congrArg List.length h
        rw [List.length_drop, List.length_nil] at hlen
        exact absurd hlt (by omega)
      · rfl

/-- A produced token is exactly the head of `remaining`: the successor
state holds precisely the rest, and its pushback slot is clear. -/
theorem next_some_remaining {c : CommandLine} {t : String} {c' : CommandLine}
    (h : c.next = some (t, c')) :
    c.remaining = t :: c'.remaining ∧ c'.current_element = none := by
  obtain ⟨argv, n, cur⟩ := c
  cases cur with
  | some s =>
    simp only [CommandLine.next, Option.some.injEq, Prod.mk.injEq] at h
    obtain ⟨rfl, rfl⟩ := h
    exact ⟨by simp [CommandLine.remaining], rfl⟩
  | none =>
    simp only [CommandLine.next] at h
    split at h
    · rename_i hlt
      simp only [Option.some.injEq, Prod.mk.injEq] at h
      obtain ⟨rfl, rfl⟩ := h
      refine ⟨?_, rfl⟩
      simp only [CommandLine.remaining, List.nil_append]
      exact List.drop_eq_getElem_cons hlt
    · exact absurd h (by simp)

/-- C5. `next()` returns the pushed-back token (clearing it) when present,
else the next unconsumed argument (advancing), else nothing; the token
stream is exactly `remaining`, consumed front to back — `next` peels off
precisely its head, so no token position is ever produced twice — and
`push_front` (legal only with an empty pushback slot) is the one way to
put a token back at the front. -/
theorem cursor_next_consumes_in_order :
    ∀ c : CommandLine,
      (c.next = none ↔ c.remaining = []) ∧
      (∀ t c', c.next = some (t, c') →
        c.remaining = t :: c'.remaining ∧ c'.current_element = none) ∧
      (∀ s, c.current_element = some s →
        c.next = some (s, { c with current_element := none })) ∧
      (c.current_element = none → ∀ t, (c.push_front t).remaining = t :: c.remaining) := by
  intro c
  refine ⟨next_none_iff c, fun t c' h => next_some_remaining h, ?_, ?_⟩
  · intro s h
    obtain ⟨argv, n, cur⟩ := c
    simp only at h
    subst h
    rfl
  · intro h t
    obtain ⟨argv, n, cur⟩ := c
    simp only at h
    subst h
    rfl

/-- C6. `next_value_or_fail` hands through `next()`'s token when one
exists, and fails with exactly `missing value '<value_name>'` precisely
when the cursor is exhausted; with a 3-token argument list, three `next`
calls succeed and the following `next_value_or_fail "a"` fails with
`missing value 'a'`. -/
theorem next_value_or_fail_missing_value :
    ∀ (c : CommandLine) (value_name : String),
      ((c.next_value_or_fail value_name).2 =
          .error ("missing value '" ++ value_name ++ "'") ↔ c.remaining = []) ∧
      (∀ t c', c.next = some (t, c') → c.next_value_or_fail value_name = (c', .ok t)) ∧
      (CommandLine.mk ["prog", "x", "y", "z"] 1 none).next =
        some ("x", CommandLine.mk ["prog", "x", "y", "z"] 2 none) ∧
      (CommandLine.mk ["prog", "x", "y", "z"] 2 none).next =
        some ("y", CommandLine.mk ["prog", "x", "y", "z"] 3 none) ∧
      (CommandLine.mk ["prog", "x", "y", "z"] 3 none).next =
        some ("z", CommandLine.mk ["prog", "x", "y", "z"] 4 none) ∧
      (CommandLine.mk ["prog", "x", "y", "z"] 4 none).next_value_or_fail "a" =
        (CommandLine.mk ["prog", "x", "y", "z"] 4 none, .error "missing value 'a'") := by
  intro c value_name
  refine ⟨?_, ?_, rfl, rfl, rfl, rfl⟩
  · unfold CommandLine.next_value_or_fail
    rcases h : c.next with _ | ⟨t, c'⟩
    · simpa using (next_none_iff c).mp h
    · have hne : c.remaining ≠ [] := by
        rw [(next_some_remaining h).1]
        simp
      simpa using hne
  · intro t c' h
    unfold CommandLine.next_value_or_fail
    rw [h]

/-- C10. The copying (`string_view`) constructor of the text cell maps an
empty input to the default cell — tag `Borrowed` (the non-allocating
state), size 0, empty view — and takes the heap-allocating `Owned` path
exactly for non-empty input. -/
theorem cowstr_empty_copy_is_default :
    CowStr.from_string_view "" = CowStr.default_state ∧
    (CowStr.from_string_view "").type = CowType.Borrowed ∧
    (CowStr.from_string_view "").size = 0 ∧
    (CowStr.from_string_view "").view = "" ∧
    (∀ s : String, s ≠ "" → (CowStr.from_string_view s).type = CowType.Owned) := by
  refine ⟨rfl, rfl, rfl, rfl, fun s h => ?_⟩
  unfold CowStr.from_string_view
  rw [if_pos (by simpa [Bool.eq_false_iff, String.isEmpty_iff] using h)]

/-- C4. Reading the bare `--` token while option parsing is enabled
disables option recognition for the remainder of the run: the rest of the
loop runs with `enable_option_parsing = false`, under which every token —
dash-prefixed or not — is skipped, so no descriptor is matched or parsed,
no descriptor state changes, and no unknown-option or unsupported-syntax
error is ever raised: the parse ends in `.ok` with the registry untouched. -/
theorem terminator_disables_option_recognition :
    ∀ (options : List OptionBase) (c c' : CommandLine),
      Application.parse_loop options false c = .ok options ∧
      (c.next = some ("--", c') → Application.parse options c = .ok options) := by
  intro options c c'
  refine ⟨parse_loop_disabled options c, fun h => ?_⟩
  rw [Application.parse, parse_loop_terminator h rfl options]
  exact parse_loop_disabled options c'

/-- C9. A token the loop does not classify as an option token — any token
when option parsing is disabled, and otherwise exactly the tokens that are
not a dash followed by at least one character (no leading dash, the bare
`-`, the empty token) — is silently skipped: the loop continues on the
successor cursor with the same registry and the same flag, raising no
error, looking up no descriptor, and changing no occurrence count or
stored value. -/
theorem non_option_tokens_skipped :
    ∀ (options : List OptionBase) (enabled : Bool) (c c1 : CommandLine) (tok : String),
      (c.next = some (tok, c1) → (enabled && is_option_like tok) = false →
        Application.parse_loop options enabled c = Application.parse_loop options enabled c1) ∧
      (is_option_like tok = true ↔ ∃ ch rest, tok.data = '-' :: ch :: rest) ∧
      is_option_like "" = false ∧
      is_option_like "-" = false ∧
      is_option_like "abc" = false ∧
      is_option_like "--x" = true := by
  intro options enabled c c1 tok
  refine ⟨fun h hskip => parse_loop_skip h hskip options, ?_, rfl, rfl, rfl, rfl⟩
  constructor
  · intro htrue
    unfold is_option_like at htrue
    split at htrue
    · rename_i ch rest heq
      exact ⟨ch, rest, heq⟩
    · exact absurd htrue (by simp)
  · rintro ⟨ch, rest, heq⟩
    unfold is_option_like
    rw [heq]
    rfl

/-- Full characterisation of `parse_signed_integer`: success yields the
value of a complete `strtoimax` conversion of the whole text that incurred
no `ERANGE` and fits the target type's limits; every failure carries
exactly the `value '<name>' is not a valid <type>: '<text>'` message. -/
theorem parse_signed_integer_spec (tmin tmax : Int) (text name tyname : String) :
    match parse_signed_integer tmin tmax text name tyname with
    | .ok v => text.isEmpty = false ∧ strtoimax0 text.data = some (v, []) ∧
        intmax_min ≤ v ∧ v ≤ intmax_max ∧ tmin ≤ v ∧ v ≤ tmax
    | .error e => e = invalid_value_message text name tyname := by
  unfold parse_signed_integer parse_intmax
  by_cases hemp : text.isEmpty
  · simp [hemp]
  · rcases hs : strtoimax0 text.data with _ | ⟨v, rest⟩
    · simp [hemp, hs]
    · by_cases hcond : rest = [] ∧ intmax_min ≤ v ∧ v ≤ intmax_max
      · by_cases hbound : tmin ≤ v ∧ v ≤ tmax
        · simp [hemp, hs, hcond, hbound]
        · simp [hemp, hs, hcond, hbound]
      · simp [hemp, hs, hcond]

/-- C1. For every text and both bounded integer types, the codec parse
either returns the value of a strict, whole-input `strtoimax` conversion
whose magnitude fits the target width, or fails with exactly the message
`value '<name>' is not a valid <type>: '<text>'`; in particular trailing
characters (`"42 "`), a decimal point (`"45.67"`), non-numeric text,
empty input, and in-grammar integers exceeding the width all fail. -/
theorem integer_codec_strict :
    ∀ (text name : String),
      (match ValueTrait_int_parse text name with
       | .ok v => text.isEmpty = false ∧ strtoimax0 text.data = some (v, []) ∧
           int_min ≤ v ∧ v ≤ int_max
       | .error e => e = invalid_value_message text name "integer (int)") ∧
      (match ValueTrait_long_parse text name with
       | .ok v => text.isEmpty = false ∧ strtoimax0 text.data = some (v, []) ∧
           intmax_min ≤ v ∧ v ≤ intmax_max
       | .error e => e = invalid_value_message text name "integer (long)") ∧
      ValueTrait_int_parse "42 " "a" = .error "value 'a' is not a valid integer (int): '42 '" ∧
      ValueTrait_int_parse "45.67" "a" =
        .error "value 'a' is not a valid integer (int): '45.67'" ∧
      ValueTrait_int_parse "azerty" "a" =
        .error "value 'a' is not a valid integer (int): 'azerty'" ∧
      ValueTrait_int_parse "" "a" = .error "value 'a' is not a valid integer (int): ''" ∧
      ValueTrait_int_parse "2147483648" "a" =
        .error "value 'a' is not a valid integer (int): '2147483648'" ∧
      ValueTrait_long_parse "2147483648" "a" = .ok 2147483648 ∧
      ValueTrait_long_parse "9223372036854775808" "a" =
        .error "value 'a' is not a valid integer (long): '9223372036854775808'" := by
  intro text name
  refine ⟨?_, ?_, rfl, rfl, rfl, rfl, rfl, rfl, rfl⟩
  · have h := parse_signed_integer_spec int_min int_max text name "integer (int)"
    unfold ValueTrait_int_parse
    rcases hr : parse_signed_integer int_min int_max text name "integer (int)" with e | v <;>
      rw [hr] at h
    · exact h
    · exact ⟨h.1, h.2.1, h.2.2.2.2.1, h.2.2.2.2.2⟩
  · have h := parse_signed_integer_spec intmax_min intmax_max text name "integer (long)"
    unfold ValueTrait_long_parse
    rcases hr : parse_signed_integer intmax_min intmax_max text name "integer (long)" with e | v <;>
      rw [hr] at h
    · exact h
    · exact ⟨h.1, h.2.1, h.2.2.1, h.2.2.2.1⟩

/-- The length of a joined string list is the sum of the lengths
(accumulator-generalised form of `String.join`'s `foldl`). -/
theorem length_foldl_append :
    ∀ (l : List String) (acc : String),
      (l.foldl (· ++ ·) acc).length = acc.length + (l.map String.length).sum := by
  intro l
  induction l with
  | nil => simp
  | cons x xs ih =>
    intro acc
    simp only [List.foldl_cons, ih, String.length_append, List.map_cons, List.sum_cons]
    omega

theorem length_join (l : List String) :
    (String.join l).length = (l.map String.length).sum := by
  have h := length_foldl_append l ""
  simpa [String.join] using h

theorem foldl_max_acc_le {α : Type} (f : α → Nat) :
    ∀ (l : List α) (acc : Nat), acc ≤ l.foldl (fun a x => max a (f x)) acc := by
  intro l
  induction l with
  | nil => simp
  | cons x xs ih =>
    intro acc
    exact le_trans (Nat.le_max_left acc (f x)) (ih (max acc (f x)))

theorem mem_le_foldl_max {α : Type} (f : α → Nat) :
    ∀ (l : List α) (acc : Nat) (o : α), o ∈ l →
      f o ≤ l.foldl (fun a x => max a (f x)) acc := by
  intro l
  induction l with
  | nil => intro acc o ho; exact absurd ho (by simp)
  | cons x xs ih =>
    intro acc o ho
    rcases List.mem_cons.mp ho with rfl | hmem
    · exact le_trans (Nat.le_max_right acc (f o)) (foldl_max_acc_le f xs (max acc (f o)))
    · exact ih (max acc (f x)) o hmem

/-- C8. Pass 1's counted width of a descriptor's pattern equals the number
of characters pass 2 emits for the same pattern; the alignment column is at
least every pattern's width plus the 3-character gutter; and each rendered
line places the help text exactly at the alignment column: the prefix
before the help text (pattern plus padding) always has length
`help_text_offset`. -/
theorem usage_help_text_alignment :
    ∀ (options : List UsageOption) (o : UsageOption),
      o ∈ options →
      write_option_pattern_size o = (write_option_pattern_string o).length ∧
      write_option_pattern_size o + 3 ≤ help_text_offset options ∧
      (write_option_pattern_string o ++
          String.mk (List.replicate
            (help_text_offset options - write_option_pattern_size o) ' ')).length =
        help_text_offset options ∧
      usage_option_line (help_text_offset options) o =
        write_option_pattern_string o ++
          String.mk (List.replicate
            (help_text_offset options - write_option_pattern_size o) ' ') ++
          o.help_text ++ "\n" := by
  intro options o ho
  have hjoin : (String.join (o.value_names.map (fun value_name => " " ++ value_name))).length =
      (o.value_names.map (fun value_name => 1 + value_name.length)).sum := by
    rw [length_join, List.map_map]
    have hcomp : (String.length ∘ fun value_name => " " ++ value_name) =
        fun value_name : String => 1 + value_name.length := by
      funext n
      simp [Function.comp, String.length_append, show String.length " " = 1 from rfl]
    rw [hcomp]
  have hsize : write_option_pattern_size o = (write_option_pattern_string o).length := by
    unfold write_option_pattern_size write_option_pattern_string
    by_cases hs : o.has_short_name <;> by_cases hl : o.has_long_name <;>
      simp [hs, hl, String.length_append, hjoin,
        show String.length "  " = 2 from rfl, show String.length "-" = 1 from rfl,
        show String.length "," = 1 from rfl, show String.length "--" = 2 from rfl] <;>
      omega
  have hmax : write_option_pattern_size o + 3 ≤ help_text_offset options :=
    mem_le_foldl_max (fun o => write_option_pattern_size o + 3) options 0 o ho
  refine ⟨hsize, hmax, ?_, rfl⟩
  simp only [String.length_append, String.length_mk, List.length_replicate, ← hsize]
  omega

/-- The usage side of the two descriptors registered by src/tests.cpp:
`-f N` and `-t,--triple A B C`, patterns of differing width. -/
def factor_usage : UsageOption :=
  { short_name := 'f', help_text := "Integer factor", value_names := ["N"] }

def triple_usage : UsageOption :=
  { short_name := 't', long_name := "triple", help_text := "Make a tuple with 3 elements",
    value_names := ["A", "B", "C"] }

/-- Witness for C8: with the two test descriptors registered, both rendered
lines place the help text at the same column. -/
theorem usage_help_text_alignment_witness :
    (write_option_pattern_string factor_usage ++
        String.mk (List.replicate
          (help_text_offset [factor_usage, triple_usage] -
            write_option_pattern_size factor_usage) ' ')).length =
      help_text_offset [factor_usage, triple_usage] ∧
    (write_option_pattern_string triple_usage ++
        String.mk (List.replicate
          (help_text_offset [factor_usage, triple_usage] -
            write_option_pattern_size triple_usage) ' ')).length =
      help_text_offset [factor_usage, triple_usage] :=
  ⟨(usage_help_text_alignment [factor_usage, triple_usage] factor_usage
      (by simp)).2.2.1,
   (usage_help_text_alignment [factor_usage, triple_usage] triple_usage
      (by simp)).2.2.1⟩

/-- C7. For N element codecs paired with N names (one per slot), the
composite codec parses each slot in positional order against the matching
name, consuming exactly N tokens from the cursor regardless of their shape
(they are fetched through `next_value_or_fail`, which never inspects them):
on success the result has one value per slot, the cursor has advanced past
exactly N tokens, and slot `i`'s codec accepted token `i` under name `i`;
a `.error` result occurs precisely when no such full assignment exists —
the first failing element aborts the whole parse with no tuple produced.
Concretely, `["42", "-a", "5"]` aborts at slot `B` because the consumed
dash token `-a` is not an integer (it is not treated as an option), and
`["1", "-2"]` aborts at slot `C` with a missing value. -/
theorem tuple_codec_positional_consumption :
    ∀ (elems : List (String → String → Except String Int)) (names : List String)
      (state : CommandLine),
      elems.length = names.length →
      (match tuple_parse elems names state with
       | (state', .ok vs) =>
           vs.length = elems.length ∧
           elems.length ≤ state.remaining.length ∧
           state'.remaining = state.remaining.drop elems.length ∧
           List.Forall₂
             (fun (fn : (String → String → Except String Int) × String)
                  (tv : String × Int) => fn.1 tv.1 fn.2 = .ok tv.2)
             (elems.zip names) ((state.remaining.take elems.length).zip vs)
       | (_, .error _) =>
           ¬ ∃ vs : List Int,
             elems.length ≤ state.remaining.length ∧ vs.length = elems.length ∧
             List.Forall₂
               (fun (fn : (String → String → Except String Int) × String)
                    (tv : String × Int) => fn.1 tv.1 fn.2 = .ok tv.2)
               (elems.zip names) ((state.remaining.take elems.length).zip vs)) ∧
      (tuple_parse [ValueTrait_int_parse, ValueTrait_int_parse, ValueTrait_int_parse]
          ["A", "B", "C"] (command_line_of ["42", "-a", "5"])).2 =
        .error "value 'B' is not a valid integer (int): '-a'" ∧
      (tuple_parse [ValueTrait_int_parse, ValueTrait_int_parse, ValueTrait_int_parse]
          ["A", "B", "C"] (command_line_of ["1", "-2"])).2 =
        .error "missing value 'C'" ∧
      (tuple_parse [ValueTrait_int_parse, ValueTrait_int_parse, ValueTrait_int_parse]
          ["A", "B", "C"] (command_line_of ["1", "-2", "3"])).2 =
        .ok [1, -2, 3] := by
  intro elems names state hlen
  refine ⟨?_, rfl, rfl, rfl⟩
  revert hlen
  induction elems generalizing names state with
  | nil =>
    intro hlen
    cases names with
    | nil =>
      simp only [tuple_parse]
      exact ⟨rfl, by simp, by simp, by simp⟩
    | cons n ns => simp at hlen
  | cons e es ih =>
    intro hlen
    cases names with
    | nil => simp at hlen
    | cons n ns =>
      have hlen' : es.length = ns.length := by simpa using hlen
      simp only [tuple_parse]
      rcases hnext : state.next with _ | ⟨t, c'⟩
      · have hf : state.next_value_or_fail n =
            (state, .error ("missing value '" ++ n ++ "'")) := by
          unfold CommandLine.next_value_or_fail
          rw [hnext]
        rw [hf]
        rintro ⟨vs, hle, -, -⟩
        rw [(next_none_iff state).mp hnext] at hle
        simp at hle
      · have hf : state.next_value_or_fail n = (c', .ok t) := by
          unfold CommandLine.next_value_or_fail
          rw [hnext]
        have hrem : state.remaining = t :: c'.remaining := (next_some_remaining hnext).1
        rw [hf]
        dsimp only
        rcases he : e t n with e2 | v
        · rintro ⟨vs, hle, hvs, hfa⟩
          rcases vs with _ | ⟨v0, vs'⟩
          · simp at hvs
          · rw [hrem] at hfa
            simp only [List.length_cons, List.take_succ_cons, List.zip_cons_cons,
              List.forall₂_cons] at hfa
            rw [he] at hfa
            exact absurd hfa.1 (by simp)
        · rcases hrest : tuple_parse es ns c' with ⟨s2, r2⟩
          have IHspec := ih ns c' hlen'
          rw [hrest] at IHspec
          rcases r2 with e2 | vs <;> dsimp only at IHspec ⊢
          · rintro ⟨vs, hle, hvs, hfa⟩
            rcases vs with _ | ⟨v0, vs'⟩
            · simp at hvs
            · rw [hrem] at hle hfa
              simp only [List.length_cons, List.take_succ_cons, List.zip_cons_cons,
                List.forall₂_cons] at hfa
              exact IHspec ⟨vs', by simpa using hle, by simpa using hvs, hfa.2⟩
          · obtain ⟨hlvs, hle, hdrop, hfa⟩ := IHspec
            refine ⟨by simpa using hlvs, ?_, ?_, ?_⟩
            · rw [hrem]
              simpa using hle
            · rw [hrem]
              simpa using hdrop
            · rw [hrem]
              simp only [List.length_cons, List.take_succ_cons, List.zip_cons_cons,
                List.forall₂_cons]
              exact ⟨he, hfa⟩

/-- Witness for C7: three integer slots named `A B C` against the tokens
`1 -2 3` parse positionally and consume exactly the three tokens. -/
theorem tuple_codec_positional_consumption_witness :
    (tuple_parse [ValueTrait_int_parse, ValueTrait_int_parse, ValueTrait_int_parse]
        ["A", "B", "C"] (command_line_of ["1", "-2", "3"])).1.remaining =
      (command_line_of ["1", "-2", "3"]).remaining.drop 3 :=
  ((tuple_codec_positional_consumption
    [ValueTrait_int_parse, ValueTrait_int_parse, ValueTrait_int_parse]
    ["A", "B", "C"] (command_line_of ["1", "-2", "3"]) rfl).1).2.2.1

/-- Witness for C3 at a concrete repeated single-value option. -/
theorem single_option_repeated_fails_witness :
    OptionBase.parse factor_used (command_line_of ["2"]) =
      (factor_used, command_line_of ["2"],
        some ("option '" ++ factor_used.name ++ "' cannot be used more than once")) :=
  (single_option_repeated_fails factor_used (command_line_of ["2"]) (some 1) "N" rfl
    (by decide)).1

end ropts
